import Mathlib

/- Verification development for the oracle-multiples repository.

   The repository builds quantum-circuit descriptions for marking multiples
   of an integer K.  The definitions below are shallow embeddings of the
   Python sources:
     - utilities_multiples.py : get_remainders_power_2, to_binary, mc_gate
       and its helper pair generator,
     - code/operations.py : get_angles_phase_addition, phase_add,
       c_phase_add, c_phase_add_mod_K,
     - code/multiples_functions.py and multiples_functions.py (root
       variant) : the oracle composer's caching and register setup.

   Angles are represented exactly, as rationals in units of pi (the Python
   code multiplies the same dyadic coefficients by np.pi).  Machine floats
   of the source are dyadic rationals on all inputs reachable here, so the
   rational embedding is exact. -/

/-- Fixed-width binary representation of a natural number, most significant
bit first; this is the padded string produced by Python bin() plus zero
padding in to_binary, with character '1' rendered as true. -/
def binList (number nbits : Nat) : List Bool :=
  (List.range nbits).map (fun j => number.testBit (nbits - 1 - j))

/-- to_binary from utilities_multiples.py, in the branch where nbits is
provided (the only branch the angle computation uses).  The Python code
prints an error and returns None exactly when nbits is smaller than the
length of bin(number), i.e. unless 1 <= nbits and number < 2 ^ nbits;
otherwise it returns the zero-padded binary string, embedded here as a
most-significant-first list of booleans. -/
def to_binary (number : Nat) (nbits : Nat) : Option (List Bool) :=
  if 1 ≤ nbits ∧ number < 2 ^ nbits then some (binList number nbits) else none

/-- Python list repetition, l * n. -/
def listRepeat (l : List Nat) : Nat → List Nat
  | 0 => []
  | n + 1 => l ++ listRepeat l n

/-- Loop of get_remainders_power_2 from utilities_multiples.py.  One call
of remGo with fuel f performs the iterations of the Python loop
for p in range(2, power + 1) (f counts the remaining iterations; the
initial call passes power - 1, the size of that range).  Each iteration
doubles the last remainder, subtracts number once if the double reached
number, short-circuits by tiling the discovered cycle when the fresh
remainder equals 1, and otherwise appends the fresh remainder. -/
def remGo (number power : Nat) : Nat → List Nat → List Nat
  | 0, rems => rems
  | fuel + 1, rems =>
    let check0 := rems.getD (rems.length - 1) 0 * 2
    let check := if number ≤ check0 then check0 - number else check0
    if check = 1 then
      (listRepeat rems (power / rems.length + 1)).take (power + 1)
    else
      remGo number power fuel (rems ++ [check])

/-- get_remainders_power_2 from utilities_multiples.py: remainders of the
powers of two up to the given power, divided by the given number, seeded
with the list containing 1 and 2. -/
def get_remainders_power_2 (number power : Nat) : List Nat :=
  remGo number power (power - 1) [1, 2]

/-- get_angles_phase_addition from code/operations.py, with angles in units
of pi.  For wire i the Python code sums math.pow(2, nqubits-i-1-j) over the
string positions j in range(nqubits-i-1, nqubits) whose character is '1';
the Lean embedding writes that Python range as List.range' with the same
bounds and reads the string through to_binary.  Exponents can be negative,
so the coefficients live in the rationals.  The outer comprehension runs i
over range(nqubits), so for nqubits = 0 it is empty and returns an empty
array without ever subscripting the string: a None from to_binary goes
unnoticed and no error occurs.  For nqubits at least 1 every entry
subscripts the string (the inner range always holds at least one index),
so a None from to_binary raises there, before any gate exists. -/
def get_angles_phase_addition (number_ nqubits : Nat) : Option (List ℚ) :=
  if nqubits = 0 then some []
  else
    (to_binary number_ nqubits).map (fun num_binary =>
      (List.range nqubits).map (fun i =>
        ((List.range' (nqubits - i - 1) (nqubits - (nqubits - i - 1))).map
          (fun j =>
            if num_binary.getD j false then
              (2 : ℚ) ^ ((nqubits : ℤ) - i - 1 - j)
            else 0)).sum))

/-- Elementary operations appended by the adder builders: a QFT or inverse
QFT sub-circuit on a wire list (carrying its approximation degree), a phase
rotation, a controlled phase rotation, a controlled NOT and a NOT.  Angles
are in units of pi. -/
inductive Gate where
  | qft (inverse : Bool) (approx : Nat) (wires : List Nat)
  | p (theta : ℚ) (wire : Nat)
  | cp (theta : ℚ) (control wire : Nat)
  | cx (control wire : Nat)
  | x (wire : Nat)
deriving DecidableEq, Repr

/-- phase_add from code/operations.py: the gate sequence it appends, one
phase rotation per target wire, with negated angles when inv is set.  It
returns none when the angle computation fails (the Python call would raise
before appending any gate). -/
def phase_add (target_register : List Nat) (num_sum : Nat) (inv : Bool) :
    Option (List Gate) :=
  (get_angles_phase_addition num_sum target_register.length).map (fun angles =>
    List.zipWith (fun theta t => Gate.p (if inv then -theta else theta) t)
      angles target_register)

/-- c_phase_add from code/operations.py: as phase_add but emitting
controlled phase rotations from the given control wire. -/
def c_phase_add (control : Nat) (target_register : List Nat) (num_sum : Nat)
    (inv : Bool) : Option (List Gate) :=
  (get_angles_phase_addition num_sum target_register.length).map (fun angles =>
    List.zipWith (fun theta t => Gate.cp (if inv then -theta else theta) control t)
      angles target_register)

/-- c_phase_add_mod_K from code/operations.py: the sequence of operations
appended to the freshly constructed circuit, in source order.  The result
pairs the gates appended so far with a success flag: on a failure the
Python function raises, discarding the local circuit, and the returned
trace records exactly the gates that had been appended before the failing
statement.  Two failure points exist: an angle computation on a nonempty
register whose addend does not fit (the None from to_binary is
subscripted), and, on an empty register, the ancilla copy, which reads
target_register[-1] and raises an IndexError after the phase additions
appended nothing and the inverse transform of stage one was appended.
On a nonempty register target_register[-1] is the last element, embedded
as getD at index nqubits - 1. -/
def c_phase_add_mod_K (target_register : List Nat) (control : Nat)
    (ancilla_qubit : Nat) (num_sum : Nat) (K : Nat) (approx_QFT : Nat)
    (include_QFTs : Bool) : List Gate × Bool :=
  let nqubits := target_register.length
  let pre := if include_QFTs then [Gate.qft false approx_QFT target_register] else []
  match c_phase_add control target_register num_sum false with
  | none => (pre, false)
  | some add_m =>
    match phase_add target_register K true with
    | none => (pre ++ add_m, false)
    | some sub_K =>
      if target_register = [] then
        (pre ++ add_m ++ sub_K ++ [Gate.qft true approx_QFT target_register],
          false)
      else
      let stage1 := add_m ++ sub_K ++ [Gate.qft true approx_QFT target_register,
        Gate.cx (target_register.getD (nqubits - 1) 0) ancilla_qubit]
      match c_phase_add ancilla_qubit target_register K false with
      | none => (pre ++ stage1 ++ [Gate.qft false approx_QFT target_register], false)
      | some add_K_anc =>
        match c_phase_add control target_register num_sum true with
        | none => (pre ++ stage1 ++ [Gate.qft false approx_QFT target_register]
            ++ add_K_anc, false)
        | some sub_m =>
          let stage2 := [Gate.qft false approx_QFT target_register] ++ add_K_anc
            ++ sub_m ++ [Gate.qft true approx_QFT target_register,
              Gate.x (target_register.getD (nqubits - 1) 0),
              Gate.cx (target_register.getD (nqubits - 1) 0) ancilla_qubit,
              Gate.x (target_register.getD (nqubits - 1) 0)]
          let stage3 := [Gate.qft false approx_QFT target_register] ++ add_m
          let post := if include_QFTs then [Gate.qft true approx_QFT target_register] else []
          (pre ++ stage1 ++ stage2 ++ stage3 ++ post, true)

/-- Addition of an integer offset to a register value, modulo 2 ^ n.  This
is the action on classical basis states of one Draper block of
c_phase_add_mod_K: a run of phase rotations for the offset while the
target register is in the Fourier basis, taken between the direct and
inverse transforms that bracket it. -/
def addMod (n : Nat) (x : Nat) (v : Int) : Nat :=
  (((x : Int) + v) % ((2 : Int) ^ n)).toNat

/-- Classical basis-state semantics of the circuit built by
c_phase_add_mod_K, statement by statement.  The register of n wires holds
x in the amplitude basis, c is the control wire and a the ancilla wire.
Reading code/operations.py top to bottom: the controlled addition of
num_sum and the subtraction of K form one Fourier-bracketed block (x1);
the controlled NOT copies the top register bit into the ancilla (a1); the
ancilla-controlled re-addition of K (x2) and the controlled subtraction of
num_sum (x3) form the second block; the NOT, controlled NOT, NOT triple
flips the top bit (x4), copies it into the ancilla (a2) and flips it back
(x5); the final block re-adds num_sum under the control (x6). -/
def modAdderCore (n K : Nat) (cm : Int) (x : Nat) (a : Bool) : Nat × Bool :=
  let x1 := addMod n (addMod n x cm) (-(K : Int))
  let a1 := a ^^ x1.testBit (n - 1)
  let x2 := addMod n x1 (if a1 then (K : Int) else 0)
  let x3 := addMod n x2 (-cm)
  let x4 := x3 ^^^ 2 ^ (n - 1)
  let a2 := a1 ^^ x4.testBit (n - 1)
  let x5 := x4 ^^^ 2 ^ (n - 1)
  let x6 := addMod n x5 cm
  (x6, a2)

/-- The run as a function of the control wire: an active control makes
every controlled phase-addition act with offset num_sum, an inactive
control with offset 0, exactly as the cp rotations of c_phase_add vanish
when the control is off. -/
def modAdderRun (n num_sum K : Nat) (c : Bool) (x : Nat) (a : Bool) :
    Nat × Bool :=
  modAdderCore n K (if c then (num_sum : Int) else 0) x a

/-- A control wire paired with a target wire, the namedtuple of _c1c2 in
utilities_multiples.py. -/
structure QPair where
  control : Nat
  target : Nat
deriving DecidableEq, Repr

/-- The unsorted pair enumeration of _c1c2 in utilities_multiples.py: for
every target below n_qubits, every control from start (0 on the forward
pass, step 1; 1 on the reverse pass, step -1) up to but excluding the
target. -/
def c1c2_pairs (n_qubits : Nat) (step : Int) : List QPair :=
  let start : Nat := if step = 1 then 0 else 1
  (List.range n_qubits).flatMap (fun target =>
    (List.range' start (target - start)).map (fun control =>
      QPair.mk control target))

/-- The sorted pair list that _c1c2 iterates over: Python list.sort with
key control + target, with reverse set exactly on the forward pass
(step 1).  Python sorting is stable, which insertionSort with a total
preorder reproduces; reverse sorting compares the keys the other way
round while keeping ties in enumeration order. -/
def c1c2_sorted_pairs (n_qubits : Nat) (step : Int) : List QPair :=
  if step = 1 then
    List.insertionSort
      (fun a b => b.control + b.target ≤ a.control + a.target)
      (c1c2_pairs n_qubits step)
  else
    List.insertionSort
      (fun a b => a.control + a.target ≤ b.control + b.target)
      (c1c2_pairs n_qubits step)

/-- One lookup-or-insert step of the per-invocation circuit dictionary of
oracle_multiples (both variants): the dictionary is embedded as its key
list in insertion order, and a new ModuloAdder circuit is constructed
exactly when the key is inserted. -/
def cacheStep (cache : List Nat) (key : Nat) : List Nat :=
  if key ∈ cache then cache else cache ++ [key]

/-- Cache contents after the fold-in loop of oracle_multiples in
code/multiples_functions.py: every remainder of the power-of-two list is
looked up in source order and a circuit for it is constructed on a miss. -/
def foldInCache (k nqubits_input : Nat) : List Nat :=
  (get_remainders_power_2 k (nqubits_input - 1)).foldl cacheStep []

/-- Cache contents after the fold-out loop of oracle_multiples in
code/multiples_functions.py: for every original remainder, the inverse
remainder k - remainder is looked up, and a circuit for it is constructed
on a miss.  Since construction happens exactly at insertion, this key list
in insertion order is also the list of num_sum values for which
c_phase_add_mod_K is invoked during the whole build. -/
def oracleCacheKeys (k nqubits_input : Nat) : List Nat :=
  (get_remainders_power_2 k (nqubits_input - 1)).foldl
    (fun cache remainder_original => cacheStep cache (k - remainder_original))
    (foldInCache k nqubits_input)

/-- Failure modes of the register-setup prologue of the root-level
oracle_multiples variant in multiples_functions.py. -/
inductive RootBuildError where
  | nameErrorClassicMultiples
deriving DecidableEq, Repr

/-- The derivation of the classic_register flag in the root-level
oracle_multiples (multiples_functions.py line 48): a missing argument is
replaced by the negation of init_H. -/
def resolveClassicRegister (init_H : Bool) (classic_register : Option Bool) :
    Bool :=
  classic_register.getD (!init_H)

/-- Register-setup prologue of the root-level oracle_multiples variant
(multiples_functions.py lines 48-76).  When the resolved classic_register
flag is true the circuit is created with the classical register that the
same branch defines; in the other branch the Python code passes the name
classic_multiples to the QuantumCircuit constructor although no branch has
defined it, so the call raises a NameError (an UnboundLocalError) and no
circuit object is ever produced.  The embedding returns the flag on
success so later phases could be chained on it. -/
def oracle_multiples_root_setup (init_H : Bool)
    (classic_register : Option Bool) : Except RootBuildError Bool :=
  if resolveClassicRegister init_H classic_register then
    Except.ok true
  else
    Except.error RootBuildError.nameErrorClassicMultiples

/-- The closed form the spec states for the angle vector, written from the
spec's words for comparison with get_angles_phase_addition: entry i is the
sum over the set bits j of the addend with j at least i of 2 to the power
w - 1 - i - j, in units of pi, where the bits b are the binary expansion
of the addend indexed so that bit j has weight 2 to the j. -/
def specAngleEntry (m w i : Nat) : ℚ :=
  ∑ j ∈ Finset.Icc i (w - 1),
    (if m.testBit j then (2 : ℚ) ^ ((w : ℤ) - 1 - i - j) else 0)

lemma pow_mod_period {K p : Nat} (hp : 2 ^ p % K = 1) (u : Nat) :
    2 ^ (p + u) % K = 2 ^ u % K := by
  rw [pow_add, Nat.mul_mod, hp, one_mul, Nat.mod_mod_of_dvd _ dvd_rfl]

lemma listRepeat_map_range {K : Nat} (p : Nat) (hp : 2 ^ p % K = 1) :
    ∀ n, listRepeat ((List.range p).map (fun i => 2 ^ i % K)) n =
      (List.range (n * p)).map (fun i => 2 ^ i % K) := by
  intro n
  induction n with
  | zero => simp [listRepeat]
  | succ n ih =>
    rw [listRepeat, ih, show (n + 1) * p = p + n * p by ring, List.range_add,
      List.map_append, List.map_map]
    congr 1
    refine List.map_congr_left (fun u _ => ?_)
    simp only [Function.comp_apply]
    exact (pow_mod_period hp u).symm

lemma remGo_spec {K : Nat} (power : Nat) (hK : 3 ≤ K) :
    ∀ fuel p, 2 ≤ p → fuel + p = power + 1 →
      remGo K power fuel ((List.range p).map (fun i => 2 ^ i % K)) =
        (List.range (power + 1)).map (fun i => 2 ^ i % K) := by
  intro fuel
  induction fuel with
  | zero =>
    intro p h2 hfp
    have hp : p = power + 1 := by omega
    rw [hp, remGo]
  | succ f ih =>
    intro p h2 hfp
    have hK0 : 0 < K := by omega
    have hlen : (((List.range p).map (fun i => 2 ^ i % K)).length) = p := by simp
    have hlast : ((List.range p).map (fun i => 2 ^ i % K)).getD (p - 1) 0 =
        2 ^ (p - 1) % K := by
      rw [List.getD_eq_getElem?_getD, List.getElem?_map,
        List.getElem?_range (by omega)]
      rfl
    have hlt : 2 ^ (p - 1) % K < K := Nat.mod_lt _ hK0
    have hp1 : p - 1 + 1 = p := by omega
    have hexp : 2 ^ (p - 1) * 2 = 2 ^ p := by rw [← pow_succ, hp1]
    have hmul : 2 ^ (p - 1) % K * 2 % K = 2 ^ p % K := by
      rw [Nat.mod_mul_mod, hexp]
    have hcheck : (if K ≤ 2 ^ (p - 1) % K * 2 then 2 ^ (p - 1) % K * 2 - K
        else 2 ^ (p - 1) % K * 2) = 2 ^ p % K := by
      rcases le_or_lt K (2 ^ (p - 1) % K * 2) with hle | hgt
      · rw [if_pos hle, ← hmul, Nat.mod_eq_sub_mod hle,
          Nat.mod_eq_of_lt (show 2 ^ (p - 1) % K * 2 - K < K by omega)]
      · rw [if_neg (by omega), ← hmul, Nat.mod_eq_of_lt hgt]
    rw [remGo]
    simp only [hlen, hlast, hcheck]
    by_cases hone : 2 ^ p % K = 1
    · rw [if_pos hone, listRepeat_map_range p hone]
      have hppos : 0 < p := by omega
      have hdm := Nat.div_add_mod power p
      have hmlt : power % p < p := Nat.mod_lt _ hppos
      have hle2 : power + 1 ≤ (power / p + 1) * p := by nlinarith [hdm, hmlt]
      rw [← List.map_take, List.take_range, min_eq_left hle2]
    · rw [if_neg hone]
      have hstep : ((List.range p).map (fun i => 2 ^ i % K)) ++ [2 ^ p % K] =
          (List.range (p + 1)).map (fun i => 2 ^ i % K) := by
        simp [List.range_succ]
      rw [hstep]
      exact ih (p + 1) (by omega) (by omega)

/-- C2, counterexample.  The claim fails on the code in three ways: for
p = 0 the function returns its two-element seed list instead of one
element; for K = 2 the element at index 1 is 2, which is neither 2 ^ 1
mod 2 = 0 nor strictly less than K; and for K = 4 the element at index 2
is 0, which is not positive (although it does equal 2 ^ 2 mod 4). -/
theorem get_remainders_power_2_counterexample :
    (get_remainders_power_2 3 0).length = 2 ∧
    ((get_remainders_power_2 2 1).getD 1 0 = 2 ∧ 2 ^ 1 % 2 = 0 ∧
      ¬ (get_remainders_power_2 2 1).getD 1 0 < 2) ∧
    (get_remainders_power_2 4 2).getD 2 0 = 0 := by
  decide

/-- C2, amended.  For every modulus K at least 3 and every power p at
least 1, get_remainders_power_2 returns exactly p + 1 elements, its
element at index i is 2 ^ i mod K for every i up to p, and every element
is strictly less than K (elements can be 0 when K is a power of two). -/
theorem get_remainders_power_2_amended (K p : Nat) (hK : 3 ≤ K) (hp : 1 ≤ p) :
    get_remainders_power_2 K p =
      (List.range (p + 1)).map (fun i => 2 ^ i % K) ∧
    (get_remainders_power_2 K p).length = p + 1 ∧
    ∀ i, i ≤ p → (get_remainders_power_2 K p).getD i 0 = 2 ^ i % K ∧
      (get_remainders_power_2 K p).getD i 0 < K := by
  have e1 : (2 : Nat) ^ 0 % K = 1 := by
    rw [pow_zero]
    exact Nat.mod_eq_of_lt (by omega)
  have e2 : (2 : Nat) ^ 1 % K = 2 := by
    rw [pow_one]
    exact Nat.mod_eq_of_lt (by omega)
  have hseed : ([1, 2] : List Nat) = (List.range 2).map (fun i => 2 ^ i % K) := by
    rw [show (List.range 2) = [0, 1] from rfl]
    simp only [List.map_cons, List.map_nil, e1, e2]
  have hmain : get_remainders_power_2 K p =
      (List.range (p + 1)).map (fun i => 2 ^ i % K) := by
    unfold get_remainders_power_2
    rw [hseed]
    exact remGo_spec p hK (p - 1) 2 (by omega) (by omega)
  refine ⟨hmain, by rw [hmain]; simp, fun i hi => ?_⟩
  have hgd : (get_remainders_power_2 K p).getD i 0 = 2 ^ i % K := by
    rw [hmain, List.getD_eq_getElem?_getD, List.getElem?_map,
      List.getElem?_range (by omega)]
    rfl
  exact ⟨hgd, by rw [hgd]; exact Nat.mod_lt _ (by omega)⟩

/-- C2, witness for the amended theorem at K = 5, p = 7, an input that
exercises the cycle-tiling path. -/
theorem get_remainders_power_2_amended_witness :
    get_remainders_power_2 5 7 =
      (List.range (7 + 1)).map (fun i => 2 ^ i % 5) ∧
    (get_remainders_power_2 5 7).length = 7 + 1 ∧
    ∀ i, i ≤ 7 → (get_remainders_power_2 5 7).getD i 0 = 2 ^ i % 5 ∧
      (get_remainders_power_2 5 7).getD i 0 < 5 :=
  get_remainders_power_2_amended 5 7 (by norm_num) (by norm_num)

lemma list_map_range_sum (f : Nat → ℚ) (n : Nat) :
    ((List.range n).map f).sum = ∑ j ∈ Finset.range n, f j := by
  induction n with
  | zero => simp
  | succ n ih =>
    rw [List.range_succ, List.map_append, List.sum_append, ih,
      Finset.sum_range_succ]
    simp

lemma bit_sum_mod (m i : Nat) :
    (∑ v ∈ Finset.range (i + 1), (if m.testBit v then 2 ^ v else 0)) =
      m % 2 ^ (i + 1) := by
  induction i with
  | zero =>
    rw [Finset.sum_range_one, pow_one, Nat.testBit_zero]
    rcases Nat.mod_two_eq_zero_or_one m with h | h <;> simp [h]
  | succ i ih =>
    have hmm : m % 2 ^ (i + 2) =
        m % 2 ^ (i + 1) + 2 ^ (i + 1) * (m / 2 ^ (i + 1) % 2) := by
      rw [show (2 : ℕ) ^ (i + 2) = 2 ^ (i + 1) * 2 by ring]
      exact Nat.mod_mul
    rw [Finset.sum_range_succ, ih, Nat.testBit_to_div_mod, hmm]
    rcases Nat.mod_two_eq_zero_or_one (m / 2 ^ (i + 1)) with h | h <;>
      rw [h] <;> simp

lemma binList_getD (m w j : Nat) (hj : j < w) :
    (binList m w).getD j false = m.testBit (w - 1 - j) := by
  unfold binList
  rw [List.getD_eq_getElem?_getD, List.getElem?_map, List.getElem?_range hj]
  rfl

lemma inner_sum_eq_bitsum (m w i : Nat) (hi : i < w) :
    ((List.range' (w - i - 1) (w - (w - i - 1))).map
      (fun j => if (binList m w).getD j false then
        (2 : ℚ) ^ ((w : ℤ) - i - 1 - j) else 0)).sum =
    ∑ v ∈ Finset.range (i + 1),
      (if m.testBit v then (2 : ℚ) ^ ((v : ℤ) - i) else 0) := by
  have hcnt : w - (w - i - 1) = i + 1 := by omega
  rw [hcnt, List.range'_eq_map_range, List.map_map, list_map_range_sum]
  refine (Finset.sum_congr rfl fun u hu => ?_).trans
    (Finset.sum_range_reflect _ (i + 1))
  have hu' : u ≤ i := by
    have := Finset.mem_range.mp hu
    omega
  simp only [Function.comp_apply]
  rw [binList_getD m w (w - i - 1 + u) (by omega)]
  have h1 : w - 1 - (w - i - 1 + u) = i - u := by omega
  have h2 : (w : ℤ) - i - 1 - ((w - i - 1 + u : ℕ) : ℤ) = -(u : ℤ) := by omega
  have h4 : i + 1 - 1 - u = i - u := by omega
  have h5 : ((i - u : ℕ) : ℤ) - (i : ℤ) = -(u : ℤ) := by omega
  rw [h1, h2, h4, h5]

lemma bitsum_rat_eq_mod (m i : Nat) :
    (∑ v ∈ Finset.range (i + 1),
      (if m.testBit v then (2 : ℚ) ^ ((v : ℤ) - i) else 0)) =
    ((m % 2 ^ (i + 1) : ℕ) : ℚ) * (2 : ℚ) ^ (-(i : ℤ)) := by
  rw [← bit_sum_mod m i]
  push_cast
  rw [Finset.sum_mul]
  refine Finset.sum_congr rfl fun v hv => ?_
  rcases h : m.testBit v with _ | _
  · simp [h]
  · rw [if_pos rfl, if_pos rfl,
      show (v : ℤ) - i = (v : ℤ) + (-(i : ℤ)) by ring,
      zpow_add₀ (two_ne_zero) (v : ℤ) (-(i : ℤ)), zpow_natCast]

lemma get_angles_eq (m w : Nat) (hw : 1 ≤ w) (hm : m < 2 ^ w) :
    get_angles_phase_addition m w = some ((List.range w).map (fun i =>
      ((List.range' (w - i - 1) (w - (w - i - 1))).map
        (fun j => if (binList m w).getD j false then
          (2 : ℚ) ^ ((w : ℤ) - i - 1 - j) else 0)).sum)) := by
  unfold get_angles_phase_addition to_binary
  rw [if_neg (show ¬ w = 0 by omega), if_pos ⟨hw, hm⟩]
  rfl

lemma get_angles_getD (m w i : Nat) (hw : 1 ≤ w) (hm : m < 2 ^ w)
    (hi : i < w) (l : List ℚ) (hl : get_angles_phase_addition m w = some l) :
    l.getD i 0 = ∑ v ∈ Finset.range (i + 1),
      (if m.testBit v then (2 : ℚ) ^ ((v : ℤ) - i) else 0) := by
  rw [get_angles_eq m w hw hm] at hl
  obtain rfl : _ = l := Option.some_injective _ hl
  rw [List.getD_eq_getElem?_getD, List.getElem?_map, List.getElem?_range hi]
  exact inner_sum_eq_bitsum m w i hi

/-- C3, counterexample.  For addend 2 at width 2 the code returns the
angle vector with entries 0 and 1 (in units of pi), while the formula
stated by the spec gives 1 for entry 0: the spec's sum runs over the bits
with index at least i, but the code accumulates the bits with
significance at most i. -/
theorem get_angles_spec_formula_counterexample :
    get_angles_phase_addition 2 2 = some [0, 1] ∧
    specAngleEntry 2 2 0 = 1 ∧ ((0 : ℚ) ≠ 1) := by
  refine ⟨?_, ?_, by norm_num⟩
  · norm_num [get_angles_phase_addition, to_binary, binList, List.range_succ,
      List.range', (by decide : Nat.testBit 2 1 = true),
      (by decide : Nat.testBit 2 0 = false)]
  · rw [specAngleEntry, (by decide : Finset.Icc 0 (2 - 1) = ({0, 1} : Finset ℕ))]
    rw [Finset.sum_insert (by decide), Finset.sum_singleton]
    norm_num [(by decide : Nat.testBit 2 1 = true),
      (by decide : Nat.testBit 2 0 = false)]

/-- C3, amended.  For every addend m that fits in w bits (and w at least
1, since the code rejects width 0 even for m = 0), the angle vector
exists, has length w, and its entry i is the sum over the set bits j of m
with j at most i of 2 ^ (j - i), in units of pi: each wire accumulates a
contribution from every set bit of significance at most its own, scaled
by the appropriate power of two. -/
theorem get_angles_closed_form (m w : Nat) (hw : 1 ≤ w) (hm : m < 2 ^ w) :
    ∃ l, get_angles_phase_addition m w = some l ∧ l.length = w ∧
      ∀ i, i < w → l.getD i 0 =
        ∑ j ∈ Finset.range (i + 1),
          (if m.testBit j then (2 : ℚ) ^ ((j : ℤ) - i) else 0) := by
  refine ⟨_, get_angles_eq m w hw hm, by simp, fun i hi => ?_⟩
  exact get_angles_getD m w i hw hm hi _ (get_angles_eq m w hw hm)

/-- C3, witness for the amended theorem at m = 2, w = 2. -/
theorem get_angles_closed_form_witness :
    ∃ l, get_angles_phase_addition 2 2 = some l ∧ l.length = 2 ∧
      ∀ i, i < 2 → l.getD i 0 =
        ∑ j ∈ Finset.range (i + 1),
          (if Nat.testBit 2 j then (2 : ℚ) ^ ((j : ℤ) - i) else 0) :=
  get_angles_closed_form 2 2 (by norm_num) (by norm_num)

/-- C8, counterexample.  At w = 1 and m = 1 the subtraction addend
2 ^ 1 - 1 is again 1, and both angle vectors are the singleton 1 (in
units of pi); entrywise negation would require 1 = -1.  The entries
agree only modulo 2 pi; as real numbers they are not negations of each
other.  Moreover m = 0 is outside the domain of the claimed relation,
since 2 ^ w does not fit in w bits. -/
theorem angles_negation_counterexample :
    get_angles_phase_addition 1 1 = some [1] ∧
    get_angles_phase_addition (2 ^ 1 - 1) 1 = some [1] ∧
    ¬ ((1 : ℚ) = -1) ∧
    get_angles_phase_addition (2 ^ 1) 1 = none := by
  refine ⟨?_, ?_, by norm_num, ?_⟩
  · norm_num [get_angles_phase_addition, to_binary, binList, List.range_succ,
      List.range', (by decide : Nat.testBit 1 0 = true)]
  · norm_num [get_angles_phase_addition, to_binary, binList, List.range_succ,
      List.range', (by decide : Nat.testBit 1 0 = true)]
  · norm_num [get_angles_phase_addition, to_binary]

/-- C8, amended.  For 1 up to m strictly below 2 ^ w, the angle vectors
for m and for 2 ^ w - m at width w are entrywise negations modulo full
turns: entry i of the first plus entry i of the second is 0 when
2 ^ (i + 1) divides m and otherwise exactly 2 (two pi in radians), never
the literal 0 required by pointwise negation except in the divisible
case.  The case m = 0 is excluded because the angle computation for
2 ^ w fails. -/
theorem angles_mod_two_pi_negation (m w : Nat) (hm1 : 1 ≤ m)
    (hm2 : m < 2 ^ w) :
    ∃ l l', get_angles_phase_addition m w = some l ∧
      get_angles_phase_addition (2 ^ w - m) w = some l' ∧
      ∀ i, i < w → l.getD i 0 + l'.getD i 0 =
        (if m % 2 ^ (i + 1) = 0 then 0 else 2) := by
  have hw : 1 ≤ w := by
    rcases Nat.eq_zero_or_pos w with h | h
    · subst h
      simp at hm2
      omega
    · exact h
  have hm2' : 2 ^ w - m < 2 ^ w := by omega
  refine ⟨_, _, get_angles_eq m w hw hm2, get_angles_eq _ w hw hm2',
    fun i hi => ?_⟩
  rw [get_angles_getD m w i hw hm2 hi _ (get_angles_eq m w hw hm2),
    get_angles_getD (2 ^ w - m) w i hw hm2' hi _ (get_angles_eq _ w hw hm2'),
    bitsum_rat_eq_mod, bitsum_rat_eq_mod]
  have hdvd : (2 : ℕ) ^ (i + 1) ∣ 2 ^ w := pow_dvd_pow 2 (by omega)
  have hMpos : 0 < (2 : ℕ) ^ (i + 1) := Nat.pos_pow_of_pos _ (by norm_num)
  have hzero : (2 : ℕ) ^ w % 2 ^ (i + 1) = 0 := Nat.mod_eq_zero_of_dvd hdvd
  have hadd : (m % 2 ^ (i + 1) + (2 ^ w - m) % 2 ^ (i + 1)) % 2 ^ (i + 1) = 0 := by
    rw [← Nat.add_mod, Nat.add_sub_cancel' (le_of_lt hm2), hzero]
  have h1 : m % 2 ^ (i + 1) < 2 ^ (i + 1) := Nat.mod_lt _ hMpos
  have h2 : (2 ^ w - m) % 2 ^ (i + 1) < 2 ^ (i + 1) := Nat.mod_lt _ hMpos
  have hsplit : m % 2 ^ (i + 1) + (2 ^ w - m) % 2 ^ (i + 1) = 0 ∨
      m % 2 ^ (i + 1) + (2 ^ w - m) % 2 ^ (i + 1) = 2 ^ (i + 1) := by
    obtain ⟨c, hc⟩ := Nat.dvd_of_mod_eq_zero hadd
    have hmc : 2 ^ (i + 1) * c < 2 ^ (i + 1) * 2 := by omega
    have hc2 : c < 2 := Nat.lt_of_mul_lt_mul_left hmc
    interval_cases c <;> omega
  by_cases hr : m % 2 ^ (i + 1) = 0
  · have hr' : (2 ^ w - m) % 2 ^ (i + 1) = 0 := by omega
    rw [if_pos hr, hr, hr']
    simp
  · rw [if_neg hr]
    have hS : m % 2 ^ (i + 1) + (2 ^ w - m) % 2 ^ (i + 1) = 2 ^ (i + 1) := by
      rcases hsplit with h | h
      · omega
      · exact h
    rw [← add_mul, ← Nat.cast_add, hS]
    rw [Nat.cast_pow, Nat.cast_ofNat, ← zpow_natCast (2 : ℚ) (i + 1),
      ← zpow_add₀ (two_ne_zero : (2 : ℚ) ≠ 0)]
    rw [show ((i + 1 : ℕ) : ℤ) + (-(i : ℤ)) = 1 by push_cast; ring]
    norm_num

/-- C8, witness for the amended theorem at m = 3, w = 3. -/
theorem angles_mod_two_pi_negation_witness :
    ∃ l l', get_angles_phase_addition 3 3 = some l ∧
      get_angles_phase_addition (2 ^ 3 - 3) 3 = some l' ∧
      ∀ i, i < 3 → l.getD i 0 + l'.getD i 0 =
        (if 3 % 2 ^ (i + 1) = 0 then 0 else 2) :=
  angles_mod_two_pi_negation 3 3 (by norm_num) (by norm_num)

lemma addMod_eq (n x : Nat) (v : Int) (h0 : 0 ≤ (x : ℤ) + v)
    (h1 : (x : ℤ) + v < 2 ^ n) : (addMod n x v : ℤ) = (x : ℤ) + v := by
  unfold addMod
  rw [Int.emod_eq_of_lt h0 h1, Int.toNat_of_nonneg h0]

lemma addMod_eq_wrap_neg (n x : Nat) (v : Int)
    (h0 : -(2 ^ n) ≤ (x : ℤ) + v) (h1 : (x : ℤ) + v < 0) :
    (addMod n x v : ℤ) = (x : ℤ) + v + 2 ^ n := by
  unfold addMod
  have hpos : (0 : ℤ) < 2 ^ n := by positivity
  have key : ((x : ℤ) + v) % 2 ^ n = (x : ℤ) + v + 2 ^ n := by
    calc ((x : ℤ) + v) % 2 ^ n
        = ((x : ℤ) + v + 2 ^ n * 1) % 2 ^ n := (Int.add_mul_emod_self_left _ _ _).symm
      _ = ((x : ℤ) + v + 2 ^ n) % 2 ^ n := by ring_nf
      _ = (x : ℤ) + v + 2 ^ n := Int.emod_eq_of_lt (by omega) (by omega)
  rw [key, Int.toNat_of_nonneg (by omega)]

lemma addMod_eq_wrap_pos (n x : Nat) (v : Int)
    (h0 : 2 ^ n ≤ (x : ℤ) + v) (h1 : (x : ℤ) + v < 2 * 2 ^ n) :
    (addMod n x v : ℤ) = (x : ℤ) + v - 2 ^ n := by
  unfold addMod
  have hpos : (0 : ℤ) < 2 ^ n := by positivity
  have key : ((x : ℤ) + v) % 2 ^ n = (x : ℤ) + v - 2 ^ n := by
    calc ((x : ℤ) + v) % 2 ^ n
        = ((x : ℤ) + v - 2 ^ n + 2 ^ n * 1) % 2 ^ n := by ring_nf
      _ = ((x : ℤ) + v - 2 ^ n) % 2 ^ n := Int.add_mul_emod_self_left _ _ _
      _ = (x : ℤ) + v - 2 ^ n := Int.emod_eq_of_lt (by omega) (by omega)
  rw [key, Int.toNat_of_nonneg (by omega)]

lemma testBit_top (n y : Nat) (h : y < 2 ^ (n + 1)) :
    y.testBit n = decide (2 ^ n ≤ y) := by
  have hp : (2 : ℕ) ^ (n + 1) = 2 ^ n * 2 := pow_succ 2 n
  rw [Nat.testBit_to_div_mod]
  rcases le_or_lt (2 ^ n) y with hle | hlt
  · have h1 : y / 2 ^ n = 1 := Nat.div_eq_of_lt_le (by omega) (by omega)
    simp [h1, hle]
  · rw [Nat.div_eq_of_lt hlt]
    simp [Nat.not_le.mpr hlt]

lemma xor_twice (x v : Nat) : x ^^^ v ^^^ v = x := by
  rw [Nat.xor_assoc, Nat.xor_self, Nat.xor_zero]

lemma testBit_flip_top (n x : Nat) :
    (x ^^^ 2 ^ n).testBit n = !x.testBit n := by
  rw [Nat.testBit_xor, Nat.testBit_two_pow_self]
  cases x.testBit n <;> rfl

lemma modAdderCore_spec (n K cmN x : Nat) (hn : 1 ≤ n)
    (hKM : K ≤ 2 ^ (n - 1)) (hK : 2 ≤ K) (hcm : cmN < K) (hx : x < K) :
    modAdderCore n K (cmN : Int) x false = ((x + cmN) % K, false) := by
  have hn1 : n - 1 + 1 = n := by omega
  have h2n : (2 : ℕ) ^ n = 2 * 2 ^ (n - 1) := by
    conv_lhs => rw [← hn1, pow_succ]
    ring
  have hP : (2 : ℤ) ^ n = ((2 ^ n : ℕ) : ℤ) := by push_cast; ring
  simp only [modAdderCore, Bool.false_xor]
  have e0 : addMod n x (cmN : Int) = x + cmN := by
    have := addMod_eq n x (cmN : Int) (by omega) (by omega)
    omega
  rw [e0]
  rcases le_or_lt K (x + cmN) with hcase | hcase
  · -- the sum reaches K: the unconditional subtraction of K does not
    -- underflow, the ancilla stays clear, and the final value is the
    -- reduced sum
    have e1 : addMod n (x + cmN) (-(K : Int)) = x + cmN - K := by
      have := addMod_eq n (x + cmN) (-(K : Int)) (by omega) (by omega)
      omega
    rw [e1]
    have hbit1 : (x + cmN - K).testBit (n - 1) = false := by
      rw [testBit_top (n - 1) _ (by rw [hn1]; omega)]
      simp only [decide_eq_false_iff_not, Nat.not_le]
      omega
    rw [hbit1, if_neg Bool.false_ne_true]
    have e2 : addMod n (x + cmN - K) 0 = x + cmN - K := by
      have := addMod_eq n (x + cmN - K) 0 (by omega) (by omega)
      omega
    rw [e2]
    have e3 : addMod n (x + cmN - K) (-(cmN : Int)) = x + 2 ^ n - K := by
      have := addMod_eq_wrap_neg n (x + cmN - K) (-(cmN : Int)) (by omega)
        (by omega)
      omega
    rw [e3]
    have hbit2 : (x + 2 ^ n - K).testBit (n - 1) = true := by
      rw [testBit_top (n - 1) _ (by rw [hn1]; omega)]
      simp only [decide_eq_true_eq]
      omega
    rw [testBit_flip_top, hbit2, Bool.not_true, Bool.xor_false, xor_twice]
    have e6 : addMod n (x + 2 ^ n - K) (cmN : Int) = x + cmN - K := by
      have := addMod_eq_wrap_pos n (x + 2 ^ n - K) (cmN : Int) (by omega)
        (by omega)
      omega
    rw [e6, Nat.mod_eq_sub_mod hcase, Nat.mod_eq_of_lt (by omega)]
  · -- the sum stays below K: the subtraction of K wraps around, the
    -- ancilla records it, stage two undoes stage one and clears the
    -- ancilla, and the final value is the plain sum
    have e1 : addMod n (x + cmN) (-(K : Int)) = x + cmN + 2 ^ n - K := by
      have := addMod_eq_wrap_neg n (x + cmN) (-(K : Int)) (by omega) (by omega)
      omega
    rw [e1]
    have hbit1 : (x + cmN + 2 ^ n - K).testBit (n - 1) = true := by
      rw [testBit_top (n - 1) _ (by rw [hn1]; omega)]
      simp only [decide_eq_true_eq]
      omega
    rw [hbit1, if_pos rfl]
    have e2 : addMod n (x + cmN + 2 ^ n - K) (K : Int) = x + cmN := by
      have := addMod_eq_wrap_pos n (x + cmN + 2 ^ n - K) (K : Int) (by omega)
        (by omega)
      omega
    rw [e2]
    have e3 : addMod n (x + cmN) (-(cmN : Int)) = x := by
      have := addMod_eq n (x + cmN) (-(cmN : Int)) (by omega) (by omega)
      omega
    rw [e3]
    have hbit2 : x.testBit (n - 1) = false := by
      rw [testBit_top (n - 1) _ (by rw [hn1]; omega)]
      simp only [decide_eq_false_iff_not, Nat.not_le]
      omega
    rw [testBit_flip_top, hbit2, Bool.not_false, Bool.xor_true, Bool.not_true,
      xor_twice]
    have e6 : addMod n x (cmN : Int) = x + cmN := by
      have := addMod_eq n x (cmN : Int) (by omega) (by omega)
      omega
    rw [e6, Nat.mod_eq_of_lt hcase]

/-- C1.  For every modulus K at least 2, addend num_sum below K, target
register of width one more than the base-2 ceiling logarithm of K, and
register value x below K, the classical semantics of the circuit built by
c_phase_add_mod_K maps x to (x + num_sum) mod K when the control is
active, leaves x unchanged when the control is inactive, and returns the
ancilla to 0 in both cases. -/
theorem c_phase_add_mod_K_semantics (K num_sum x : Nat) (c : Bool)
    (hK : 2 ≤ K) (hm : num_sum < K) (hx : x < K) :
    modAdderRun (Nat.clog 2 K + 1) num_sum K c x false =
      ((if c then (x + num_sum) % K else x), false) := by
  have hKM : K ≤ 2 ^ (Nat.clog 2 K + 1 - 1) := by
    simpa using Nat.le_pow_clog (by norm_num) K
  unfold modAdderRun
  cases c with
  | false =>
    have hz : (if (false : Bool) = true then (num_sum : ℤ) else 0) =
        ((0 : ℕ) : ℤ) := rfl
    rw [hz, modAdderCore_spec _ _ _ _ (by omega) hKM hK (by omega) hx,
      if_neg Bool.false_ne_true, Nat.add_zero, Nat.mod_eq_of_lt hx]
  | true =>
    have hz : (if (true : Bool) = true then (num_sum : ℤ) else 0) =
        ((num_sum : ℕ) : ℤ) := rfl
    rw [hz, modAdderCore_spec _ _ _ _ (by omega) hKM hK hm hx, if_pos rfl]

/-- C1, witness at K = 3, num_sum = 2, x = 2, active control: the
register width is the ceiling logarithm of 3 plus one and the run yields
(2 + 2) mod 3 with a clear ancilla. -/
theorem c_phase_add_mod_K_semantics_witness :
    modAdderRun (Nat.clog 2 3 + 1) 2 3 true 2 false =
      ((if true then (2 + 2) % 3 else 2), false) :=
  c_phase_add_mod_K_semantics 3 2 2 true (by norm_num) (by norm_num)
    (by norm_num)

/-- C7.  When both the addend and K fit in the register width (so the
build succeeds), the operation sequence emitted by c_phase_add_mod_K with
include_QFTs set is exactly the sequence emitted without it, preceded by
one direct Fourier transform and followed by one inverse transform on the
target register; all other operations are identical and in the same
order, and both builds succeed. -/
theorem include_QFTs_outer_only (tr : List Nat)
    (control anc num_sum K approx : Nat) (hw : 1 ≤ tr.length)
    (hm : num_sum < 2 ^ tr.length) (hK : K < 2 ^ tr.length) :
    (c_phase_add_mod_K tr control anc num_sum K approx true).1 =
      Gate.qft false approx tr ::
        ((c_phase_add_mod_K tr control anc num_sum K approx false).1 ++
          [Gate.qft true approx tr]) ∧
    (c_phase_add_mod_K tr control anc num_sum K approx true).2 = true ∧
    (c_phase_add_mod_K tr control anc num_sum K approx false).2 = true := by
  obtain ⟨A, hA⟩ : ∃ A, get_angles_phase_addition num_sum tr.length = some A :=
    ⟨_, get_angles_eq _ _ hw hm⟩
  obtain ⟨B, hB⟩ : ∃ B, get_angles_phase_addition K tr.length = some B :=
    ⟨_, get_angles_eq _ _ hw hK⟩
  have hne : ¬ (tr = []) := List.ne_nil_of_length_pos hw
  simp only [c_phase_add_mod_K, c_phase_add, phase_add, hA, hB,
    Option.map_some', if_neg hne]
  simp [List.append_assoc]

/-- C7, witness at register wires 1 and 2, control 0, ancilla 3, addend
1, modulus 2, exact transforms. -/
theorem include_QFTs_outer_only_witness :
    (c_phase_add_mod_K [1, 2] 0 3 1 2 0 true).1 =
      Gate.qft false 0 [1, 2] ::
        ((c_phase_add_mod_K [1, 2] 0 3 1 2 0 false).1 ++
          [Gate.qft true 0 [1, 2]]) ∧
    (c_phase_add_mod_K [1, 2] 0 3 1 2 0 true).2 = true ∧
    (c_phase_add_mod_K [1, 2] 0 3 1 2 0 false).2 = true :=
  include_QFTs_outer_only [1, 2] 0 3 1 2 0 (by decide) (by decide) (by decide)

/-- C9, counterexample.  Two failures of the claim.  For register width
2 and addend 4 (which does not fit), building with include_QFTs set
appends the initial direct Fourier transform to the local circuit before
the failure is detected in the first angle computation, so the error is
not detected before any gate is appended.  And on a zero-wire register,
where by the code's own fit check no addend fits, phase_add and
c_phase_add do not fail at all: the empty comprehension never reads the
None returned by to_binary and they succeed silently appending nothing,
while c_phase_add_mod_K appends the interior inverse transform and only
then fails, with an IndexError at the ancilla copy rather than a width
error, even with include_QFTs off.  (In every failing case the local
half-built circuit is discarded by the raised exception and never
returned to the caller.) -/
theorem invalid_width_counterexample :
    (c_phase_add_mod_K [1, 2] 0 3 4 2 0 true =
        ([Gate.qft false 0 [1, 2]], false) ∧
      (c_phase_add_mod_K [1, 2] 0 3 4 2 0 true).1 ≠ []) ∧
    (phase_add [] 1 false = some [] ∧
      c_phase_add 0 [] 1 false = some [] ∧
      c_phase_add_mod_K [] 0 1 1 2 0 false =
        ([Gate.qft true 0 []], false)) := by
  have h : c_phase_add_mod_K [1, 2] 0 3 4 2 0 true =
      ([Gate.qft false 0 [1, 2]], false) := rfl
  exact ⟨⟨h, by rw [h]; simp⟩, rfl, rfl, rfl⟩

/-- C9, amended.  On every register with at least one wire, an addend
that does not fit in the register width makes the angle computation fail
before any rotation gate is emitted: phase_add and c_phase_add emit
nothing and fail, and c_phase_add_mod_K fails with a partial trace that
is empty when include_QFTs is off and consists of exactly the one
initial direct Fourier transform when it is on.  On a zero-wire register
(where no addend fits) there is no width error: phase_add and
c_phase_add succeed silently and append nothing, and c_phase_add_mod_K
fails only later, at the ancilla copy, after appending the inverse
transform of stage one (preceded by the direct transform when
include_QFTs is on).  In every failing case the build raises and never
returns a circuit. -/
theorem invalid_width_amended :
    (∀ (tr : List Nat) (control anc num_sum K approx : Nat) (inc : Bool),
      1 ≤ tr.length → 2 ^ tr.length ≤ num_sum →
      (∀ inv, phase_add tr num_sum inv = none) ∧
      (∀ c' inv, c_phase_add c' tr num_sum inv = none) ∧
      c_phase_add_mod_K tr control anc num_sum K approx inc =
        ((if inc then [Gate.qft false approx tr] else []), false)) ∧
    (∀ (control anc num_sum K approx : Nat) (inc : Bool),
      (∀ inv, phase_add [] num_sum inv = some []) ∧
      (∀ c' inv, c_phase_add c' [] num_sum inv = some []) ∧
      c_phase_add_mod_K [] control anc num_sum K approx inc =
        ((if inc then [Gate.qft false approx ([] : List Nat)] else []) ++
          [Gate.qft true approx ([] : List Nat)], false)) := by
  constructor
  · intro tr control anc num_sum K approx inc hw h
    have hnone : get_angles_phase_addition num_sum tr.length = none := by
      unfold get_angles_phase_addition to_binary
      rw [if_neg (show ¬ tr.length = 0 by omega), if_neg]
      · rfl
      · rintro ⟨h1, h2⟩
        omega
    refine ⟨fun inv => ?_, fun c' inv => ?_, ?_⟩
    · simp [phase_add, hnone]
    · simp [c_phase_add, hnone]
    · simp only [c_phase_add_mod_K, c_phase_add, hnone, Option.map_none']
  · intro control anc num_sum K approx inc
    refine ⟨fun inv => rfl, fun c' inv => rfl, ?_⟩
    cases inc <;> rfl

/-- C9, witness: on register wires 1 and 2 (width 2) with addend 5 and
include_QFTs off, the build fails with an empty trace; on the zero-wire
register with addend 7 and include_QFTs on, the phase adders succeed
silently and the modulo builder fails after appending both transforms of
stage one. -/
theorem invalid_width_amended_witness :
    ((∀ inv, phase_add [1, 2] 5 inv = none) ∧
      (∀ c' inv, c_phase_add c' [1, 2] 5 inv = none) ∧
      c_phase_add_mod_K [1, 2] 0 3 5 2 0 false =
        ((if false then [Gate.qft false 0 [1, 2]] else []), false)) ∧
    ((∀ inv, phase_add [] 7 inv = some []) ∧
      (∀ c' inv, c_phase_add c' [] 7 inv = some []) ∧
      c_phase_add_mod_K [] 4 5 7 2 0 true =
        ((if true then [Gate.qft false 0 ([] : List Nat)] else []) ++
          [Gate.qft true 0 ([] : List Nat)], false)) :=
  ⟨invalid_width_amended.1 [1, 2] 0 3 5 2 0 false (by decide) (by decide),
    invalid_width_amended.2 4 5 7 2 0 true⟩

/-- C4, counterexample.  For three wires the forward pass (step 1) emits
the pairs sorted by control plus target in descending order, not
ascending as the claim states; and the reverse pass (step -1) omits every
pair with control 0, so it does not enumerate all pairs with control
strictly below target. -/
theorem mc_gate_order_counterexample :
    c1c2_sorted_pairs 3 1 =
      [QPair.mk 1 2, QPair.mk 0 2, QPair.mk 0 1] ∧
    ¬ (c1c2_sorted_pairs 3 1).Sorted
        (fun a b => a.control + a.target ≤ b.control + b.target) ∧
    QPair.mk 0 1 ∉ c1c2_sorted_pairs 3 (-1) := by
  refine ⟨by decide, ?_, by decide⟩
  rw [List.Sorted]
  decide

lemma mem_c1c2_pairs_forward (n : Nat) (pr : QPair) :
    pr ∈ c1c2_pairs n 1 ↔ pr.control < pr.target ∧ pr.target < n := by
  unfold c1c2_pairs
  rw [if_pos rfl]
  simp only [List.mem_flatMap, List.mem_map, List.mem_range, List.mem_range']
  constructor
  · rintro ⟨t, ht, c, ⟨i, hi, rfl⟩, rfl⟩
    simp only []
    omega
  · rintro ⟨h1, h2⟩
    obtain ⟨c, t⟩ := pr
    exact ⟨t, h2, c, ⟨c, by simpa using h1, by omega⟩, rfl⟩

lemma mem_c1c2_pairs_reverse (n : Nat) (pr : QPair) :
    pr ∈ c1c2_pairs n (-1) ↔
      1 ≤ pr.control ∧ pr.control < pr.target ∧ pr.target < n := by
  unfold c1c2_pairs
  rw [if_neg (by norm_num)]
  simp only [List.mem_flatMap, List.mem_map, List.mem_range, List.mem_range']
  constructor
  · rintro ⟨t, ht, c, ⟨i, hi, rfl⟩, rfl⟩
    simp only []
    omega
  · rintro ⟨h0, h1, h2⟩
    obtain ⟨c, t⟩ := pr
    have h0' : 1 ≤ c := h0
    have h1' : c < t := h1
    have h2' : t < n := h2
    exact ⟨t, h2', c, ⟨c - 1, by omega, by omega⟩, rfl⟩

/-- C4, amended.  The forward pass (step 1) iterates over exactly the
pairs with control strictly below target (both below the wire count),
sorted by control plus target in descending order; the reverse pass
(step -1) iterates over exactly the pairs with control at least 1 and
strictly below target, sorted by control plus target in ascending order.
Ties keep the enumeration order, as Python list.sort is stable. -/
theorem mc_gate_pass_order (n : Nat) :
    ((c1c2_sorted_pairs n 1).Sorted
        (fun a b => b.control + b.target ≤ a.control + a.target) ∧
      ∀ pr : QPair, pr ∈ c1c2_sorted_pairs n 1 ↔
        pr.control < pr.target ∧ pr.target < n) ∧
    ((c1c2_sorted_pairs n (-1)).Sorted
        (fun a b => a.control + a.target ≤ b.control + b.target) ∧
      ∀ pr : QPair, pr ∈ c1c2_sorted_pairs n (-1) ↔
        1 ≤ pr.control ∧ pr.control < pr.target ∧ pr.target < n) := by
  haveI ht1 : IsTotal QPair
      (fun a b => b.control + b.target ≤ a.control + a.target) :=
    ⟨fun a b => le_total (b.control + b.target) (a.control + a.target)⟩
  haveI htr1 : IsTrans QPair
      (fun a b => b.control + b.target ≤ a.control + a.target) :=
    ⟨fun _ _ _ hab hbc => le_trans hbc hab⟩
  haveI ht2 : IsTotal QPair
      (fun a b => a.control + a.target ≤ b.control + b.target) :=
    ⟨fun a b => le_total (a.control + a.target) (b.control + b.target)⟩
  haveI htr2 : IsTrans QPair
      (fun a b => a.control + a.target ≤ b.control + b.target) :=
    ⟨fun _ _ _ hab hbc => le_trans hab hbc⟩
  refine ⟨⟨?_, fun pr => ?_⟩, ⟨?_, fun pr => ?_⟩⟩
  · rw [c1c2_sorted_pairs, if_pos rfl]
    exact List.sorted_insertionSort _ _
  · rw [c1c2_sorted_pairs, if_pos rfl,
      (List.perm_insertionSort _ _).mem_iff]
    exact mem_c1c2_pairs_forward n pr
  · rw [c1c2_sorted_pairs, if_neg (by norm_num)]
    exact List.sorted_insertionSort _ _
  · rw [c1c2_sorted_pairs, if_neg (by norm_num),
      (List.perm_insertionSort _ _).mem_iff]
    exact mem_c1c2_pairs_reverse n pr

lemma mem_cacheStep (cache : List Nat) (k' key : Nat) :
    key ∈ cacheStep cache k' ↔ key ∈ cache ∨ key = k' := by
  unfold cacheStep
  by_cases h : k' ∈ cache
  · rw [if_pos h]
    constructor
    · exact Or.inl
    · rintro (hk | rfl)
      · exact hk
      · exact h
  · rw [if_neg h]
    simp only [List.mem_append, List.mem_singleton]

lemma mem_foldl_cache (f : Nat → Nat) (l : List Nat) :
    ∀ (acc : List Nat) (key : Nat),
      key ∈ l.foldl (fun cache r => cacheStep cache (f r)) acc ↔
        key ∈ acc ∨ key ∈ l.map f := by
  induction l with
  | nil => simp
  | cons a l ih =>
    intro acc key
    rw [List.foldl_cons, ih, mem_cacheStep]
    simp only [List.map_cons, List.mem_cons]
    tauto

lemma nodup_cacheStep (cache : List Nat) (k' : Nat) (h : cache.Nodup) :
    (cacheStep cache k').Nodup := by
  unfold cacheStep
  by_cases hk : k' ∈ cache
  · rwa [if_pos hk]
  · rw [if_neg hk]
    rw [List.nodup_append]
    exact ⟨h, List.nodup_singleton k',
      fun a ha hb => hk (by rwa [List.mem_singleton.mp hb] at ha)⟩

lemma nodup_foldl_cache (f : Nat → Nat) (l : List Nat) :
    ∀ acc : List Nat, acc.Nodup →
      (l.foldl (fun cache r => cacheStep cache (f r)) acc).Nodup := by
  induction l with
  | nil => intro acc h; simpa
  | cons a l ih =>
    intro acc h
    rw [List.foldl_cons]
    exact ih _ (nodup_cacheStep _ _ h)

lemma mem_foldInCache (k nq key : Nat) :
    key ∈ foldInCache k nq ↔ key ∈ get_remainders_power_2 k (nq - 1) := by
  have h := mem_foldl_cache (fun r => r) (get_remainders_power_2 k (nq - 1))
    [] key
  simpa [List.map_id] using h

/-- C5, counterexample.  For k = 3 with a two-wire input register, the
fold-in remainders are 1 and 2; the first fold-out reference needs the
inverse remainder 3 - 1 = 2, which is in the fold-in cache, so the
circuit instance built during fold-in for remainder 2 is reused even
though 1 and 3 - 1 do not coincide and 3 is odd. -/
theorem fold_out_reuse_counterexample :
    (get_remainders_power_2 3 1).getD 0 0 = 1 ∧
    (3 - (get_remainders_power_2 3 1).getD 0 0) ∈ foldInCache 3 2 ∧
    (get_remainders_power_2 3 1).getD 0 0 ≠
      3 - (get_remainders_power_2 3 1).getD 0 0 ∧
    3 % 2 = 1 := by
  decide

/-- C5, amended.  A fold-out reference at index i reuses a ModuloAdder
instance cached during fold-in exactly when the inverse remainder
k - r_i occurs anywhere among the fold-in remainder values, which can
happen for odd k and r_i different from k - r_i; the coincidence
r_i = k - r_i is not required. -/
theorem fold_out_reuse_amended (k nq i : Nat)
    (h : i < (get_remainders_power_2 k (nq - 1)).length) :
    ((k - (get_remainders_power_2 k (nq - 1)).getD i 0) ∈ foldInCache k nq ↔
      (k - (get_remainders_power_2 k (nq - 1)).getD i 0) ∈
        get_remainders_power_2 k (nq - 1)) :=
  mem_foldInCache k nq _

/-- C5, witness for the amended theorem at k = 3, two input wires,
index 0. -/
theorem fold_out_reuse_amended_witness :
    ((3 - (get_remainders_power_2 3 (2 - 1)).getD 0 0) ∈ foldInCache 3 2 ↔
      (3 - (get_remainders_power_2 3 (2 - 1)).getD 0 0) ∈
        get_remainders_power_2 3 (2 - 1)) :=
  fold_out_reuse_amended 3 2 0 (by decide)

/-- C6.  Within one oracle_multiples invocation the list of num_sum
values for which c_phase_add_mod_K is constructed (the cache keys in
insertion order, across the fold-in and fold-out loops) has no
duplicates, so the builder runs at most once per distinct addend; and
every key needed by either loop is present in the final cache, so every
later need is served from it. -/
theorem oracle_single_construction_per_key (k nqubits_input : Nat) :
    (oracleCacheKeys k nqubits_input).Nodup ∧
    ∀ r, r ∈ get_remainders_power_2 k (nqubits_input - 1) →
      r ∈ oracleCacheKeys k nqubits_input ∧
      (k - r) ∈ oracleCacheKeys k nqubits_input := by
  constructor
  · exact nodup_foldl_cache (fun r => k - r) _ _
      (nodup_foldl_cache (fun r => r) _ [] List.nodup_nil)
  · intro r hr
    have h1 : r ∈ foldInCache k nqubits_input :=
      (mem_foldInCache k nqubits_input r).mpr hr
    constructor
    · exact (mem_foldl_cache (fun r => k - r) _ _ r).mpr (Or.inl h1)
    · exact (mem_foldl_cache (fun r => k - r) _ _ (k - r)).mpr
        (Or.inr (List.mem_map.mpr ⟨r, hr, rfl⟩))

/-- C10.  In the root-level oracle_multiples variant, whenever the
resolved classic_register flag is false (in particular for the default
call with init_H true, or for any call passing classic_register false),
the register setup raises the NameError on the undefined name
classic_multiples instead of producing a circuit. -/
theorem root_variant_name_error (init_H : Bool)
    (classic_register : Option Bool)
    (h : resolveClassicRegister init_H classic_register = false) :
    oracle_multiples_root_setup init_H classic_register =
      Except.error RootBuildError.nameErrorClassicMultiples := by
  unfold oracle_multiples_root_setup
  rw [h]
  rfl

/-- C10, witness: the default call with init_H true and no
classic_register argument resolves the flag to false and raises. -/
theorem root_variant_name_error_witness :
    oracle_multiples_root_setup true none =
      Except.error RootBuildError.nameErrorClassicMultiples :=
  root_variant_name_error true none (by decide)
